import Mathlib

/-!
Verification of the WWF (WordSquad) game-server core against its
natural-language specification.

The definitions below are a shallow embedding of the Python sources:
  * `src/backend/server.py`   (request handlers, registry, rate limiting)
  * `src/backend/models.py`   (GameState, emoji variants)
  * `src/backend/game_logic.py` (scoring table, pick_new_word)

Python dictionaries are modelled as association lists, Python sets as
`Finset`, wall-clock floats as `ℚ` (only ordering and exact arithmetic on
halves is used, which ℚ models exactly), and `random.*` calls take the
raw random draw as an explicit `Nat` argument.
-/

/-- Per-letter verdict of a guess, from `result_for_guess` in
`src/backend/server.py`. -/
inductive Verdict
  | correct
  | present
  | absent
deriving DecidableEq, Repr

/-- First pass of `result_for_guess` (server.py 425-430): mark exact-position
matches `correct`, blanking the matched secret letter in the working copy
(`target_letters[i] = None`).  Returns the verdict row (with `absent`
placeholders, as the Python code initialises `result = ["absent"] * 5`) and
the working copy. -/
def pass1 : List Char → List Char → List Verdict × List (Option Char)
  | g :: gs, t :: ts =>
    let r := pass1 gs ts
    if g = t then (Verdict.correct :: r.1, none :: r.2)
    else (Verdict.absent :: r.1, some t :: r.2)
  | _, _ => ([], [])

/-- `target_letters[target_letters.index(c)] = None` (server.py 436): blank
the first remaining occurrence of `c` in the working copy; `none` when `c`
is not present (the Python code only calls it after an `in` check). -/
def consume (c : Char) : List (Option Char) → Option (List (Option Char))
  | [] => none
  | some d :: ws =>
    if c = d then some (none :: ws)
    else
      match consume c ws with
      | some ws' => some (some d :: ws')
      | none => none
  | none :: ws =>
    match consume c ws with
    | some ws' => some (none :: ws')
    | none => none

/-- Second pass of `result_for_guess` (server.py 431-436): skip `correct`
positions; otherwise mark `present` when the guess letter is still in the
working copy (consuming it), else `absent`. -/
def pass2 : List Char → List Verdict → List (Option Char) → List Verdict × List (Option Char)
  | g :: gs, r :: rs, ws =>
    if r = Verdict.correct then
      let rest := pass2 gs rs ws
      (Verdict.correct :: rest.1, rest.2)
    else
      match consume g ws with
      | some ws' =>
        let rest := pass2 gs rs ws'
        (Verdict.present :: rest.1, rest.2)
      | none =>
        let rest := pass2 gs rs ws
        (Verdict.absent :: rest.1, rest.2)
  | _, _, ws => ([], ws)

/-- `result_for_guess` (server.py 423-437): Wordle-style feedback comparing a
guess to the target, two passes over a working copy of the secret. -/
def result_for_guess (guess target : List Char) : List Verdict :=
  let p := pass1 guess target
  (pass2 guess p.1 p.2).1

/-- The letters still available after pass one, as a plain pool (the
non-blanked entries of the working copy, in order). -/
def pool (ws : List (Option Char)) : List Char := ws.filterMap id

/-- Specification-side second pass, following the spec's words: remaining
guess letters are `present` while still available in the pool of unmatched
secret letters, consuming one occurrence each, else `absent`. -/
def specPass2 : List Char → List Verdict → List Char → List Verdict
  | g :: gs, r :: rs, avail =>
    if r = Verdict.correct then Verdict.correct :: specPass2 gs rs avail
    else if g ∈ avail then Verdict.present :: specPass2 gs rs (avail.erase g)
    else Verdict.absent :: specPass2 gs rs avail
  | _, _, _ => []

/-- Specification-side two-pass verdict: pass one marks exact matches and
removes them from the working pool; pass two consumes remaining
availability. -/
def resultSpecTwoPass (guess target : List Char) : List Verdict :=
  let p := pass1 guess target
  specPass2 guess p.1 (pool p.2)

theorem pool_cons_none (ws : List (Option Char)) : pool (none :: ws) = pool ws := by
  simp [pool]

theorem pool_cons_some (d : Char) (ws : List (Option Char)) :
    pool (some d :: ws) = d :: pool ws := by
  simp [pool]

theorem consume_none_iff (c : Char) (ws : List (Option Char)) :
    consume c ws = none ↔ c ∉ pool ws := by
  induction ws with
  | nil => simp [consume, pool]
  | cons w ws ih =>
    cases w with
    | none =>
      rw [pool_cons_none]
      rcases h : consume c ws with _ | ws'
      · have hred : consume c (none :: ws) = none := by
          simp [consume, h]
        rw [hred]
        simp only [true_iff]
        exact ih.mp h
      · have hmem : c ∈ pool ws := by
          by_contra hn
          rw [ih.mpr hn] at h
          exact Option.noConfusion h
        have hred : consume c (none :: ws) = some (none :: ws') := by
          simp [consume, h]
        rw [hred]
        simp [hmem]
    | some d =>
      rw [pool_cons_some]
      by_cases hcd : c = d
      · subst hcd
        have hred : consume c (some c :: ws) = some (none :: ws) := by
          simp [consume]
        rw [hred]
        simp
      · rcases h : consume c ws with _ | ws'
        · have hred : consume c (some d :: ws) = none := by
            simp [consume, hcd, h]
          rw [hred]
          simp only [true_iff, List.mem_cons, not_or]
          exact ⟨hcd, ih.mp h⟩
        · have hmem : c ∈ pool ws := by
            by_contra hn
            rw [ih.mpr hn] at h
            exact Option.noConfusion h
          have hred : consume c (some d :: ws) = some (some d :: ws') := by
            simp [consume, hcd, h]
          rw [hred]
          simp [hmem]

theorem consume_pool (c : Char) (ws ws' : List (Option Char))
    (h : consume c ws = some ws') : pool ws' = (pool ws).erase c := by
  induction ws generalizing ws' with
  | nil => simp [consume] at h
  | cons w ws ih =>
    cases w with
    | none =>
      rcases hc : consume c ws with _ | a
      · have hred : consume c (none :: ws) = none := by simp [consume, hc]
        rw [hred] at h
        exact Option.noConfusion h
      · have hred : consume c (none :: ws) = some (none :: a) := by
          simp [consume, hc]
        rw [hred] at h
        obtain rfl : (none : Option Char) :: a = ws' := Option.some.inj h
        rw [pool_cons_none, pool_cons_none]
        exact ih a hc
    | some d =>
      by_cases hcd : c = d
      · subst hcd
        have hred : consume c (some c :: ws) = some (none :: ws) := by
          simp [consume]
        rw [hred] at h
        obtain rfl : (none : Option Char) :: ws = ws' := Option.some.inj h
        rw [pool_cons_none, pool_cons_some, List.erase_cons_head]
      · rcases hc : consume c ws with _ | a
        · have hred : consume c (some d :: ws) = none := by
            simp [consume, hcd, hc]
          rw [hred] at h
          exact Option.noConfusion h
        · have hred : consume c (some d :: ws) = some (some d :: a) := by
            simp [consume, hcd, hc]
          rw [hred] at h
          obtain rfl : some d :: a = ws' := Option.some.inj h
          have hdc : ¬ d = c := fun h' => hcd h'.symm
          rw [pool_cons_some, pool_cons_some, List.erase_cons]
          simp only [beq_iff_eq, if_neg hdc]
          rw [ih a hc]

theorem pass2_eq_specPass2 (g : List Char) (rs : List Verdict)
    (ws : List (Option Char)) : (pass2 g rs ws).1 = specPass2 g rs (pool ws) := by
  induction g generalizing rs ws with
  | nil => cases rs <;> simp [pass2, specPass2]
  | cons c gs ih =>
    cases rs with
    | nil => simp [pass2, specPass2]
    | cons r rs =>
      by_cases hr : r = Verdict.correct
      · subst hr
        simp [pass2, specPass2, ih]
      · simp only [pass2, if_neg hr, specPass2]
        rcases hw : consume c ws with _ | ws'
        · have hnot : c ∉ pool ws := (consume_none_iff c ws).mp hw
          simp [hnot, if_neg hr, ih]
        · have hmem : c ∈ pool ws := by
            by_contra hnot
            rw [← consume_none_iff c ws] at hnot
            rw [hw] at hnot
            exact Option.noConfusion hnot
          simp [hmem, if_neg hr, ih, consume_pool c ws ws' hw]

theorem result_for_guess_eq_spec (guess target : List Char) :
    result_for_guess guess target = resultSpecTwoPass guess target := by
  unfold result_for_guess resultSpecTwoPass
  exact pass2_eq_specPass2 guess (pass1 guess target).1 (pass1 guess target).2

theorem pass1_self (g : List Char) :
    pass1 g g = (List.replicate g.length Verdict.correct,
      List.replicate g.length (none : Option Char)) := by
  induction g with
  | nil => rfl
  | cons c gs ih => simp [pass1, ih, List.replicate_succ]

theorem pass2_all_correct (g : List Char) (n : Nat) (hn : g.length = n)
    (ws : List (Option Char)) :
    pass2 g (List.replicate n Verdict.correct) ws =
      (List.replicate n Verdict.correct, ws) := by
  induction g generalizing n ws with
  | nil =>
    subst hn
    simp [pass2]
  | cons c gs ih =>
    subst hn
    simp [List.replicate_succ, pass2, ih gs.length rfl]

theorem result_for_guess_self (g : List Char) :
    result_for_guess g g = List.replicate g.length Verdict.correct := by
  show (pass2 g (pass1 g g).1 (pass1 g g).2).1 = _
  rw [pass1_self]
  simp [pass2_all_correct g g.length rfl]

/-- C1: `result_for_guess` computes per-letter verdicts by the two-pass
algorithm of the spec (pass one: exact matches become `correct`, removed
from the working pool; pass two: remaining letters are `present` while
still available, consuming one occurrence each, else `absent`); the secret
`crate` with guess `trace` yields `[present, correct, correct, present,
correct]`, and a guess identical to the secret is all `correct`. -/
theorem C1_result_for_guess_two_pass :
    (∀ guess target : List Char,
        result_for_guess guess target = resultSpecTwoPass guess target) ∧
    (∀ g : List Char,
        result_for_guess g g = List.replicate g.length Verdict.correct) ∧
    result_for_guess "trace".data "crate".data =
      [Verdict.present, Verdict.correct, Verdict.correct, Verdict.present,
        Verdict.correct] ∧
    result_for_guess "crate".data "crate".data =
      List.replicate 5 Verdict.correct := by
  refine ⟨result_for_guess_eq_spec, result_for_guess_self, ?_, ?_⟩
  · decide
  · decide

/-- Scrabble letter values (`SCRABBLE_SCORES` in game_logic.py 74-82);
`SCRABBLE_SCORES.get(letter, 1)` defaults to 1, and the letters
`aeilnorstu` are mapped to 1 explicitly, so the default branch covers both. -/
def scrabbleScore (c : Char) : ℚ :=
  if c ∈ "dg".data then 2
  else if c ∈ "bcmp".data then 3
  else if c ∈ "fhvwy".data then 4
  else if c = 'k' then 5
  else if c ∈ "jx".data then 8
  else if c ∈ "qz".data then 10
  else 1

/-- The mutable pieces touched by the points loop of `guess_word`
(server.py 815-844): `found_greens`, `found_yellows` and the per-call
`global_found_this_turn`. -/
structure ScoreSt where
  greens : Finset Char
  yellows : Finset Char
  turn : Finset Char
deriving DecidableEq

/-- Points awarded by one iteration of the loop at server.py 817-844 for the
letter `c` with verdict `v`. -/
def stepPay (st : ScoreSt) (c : Char) (v : Verdict) : ℚ :=
  match v with
  | Verdict.correct =>
    if c ∉ st.greens ∧ c ∉ st.turn then
      (if c ∈ st.yellows then scrabbleScore c / 2 else scrabbleScore c)
    else 0
  | Verdict.present =>
    if c ∉ st.greens ∧ c ∉ st.yellows ∧ c ∉ st.turn then scrabbleScore c / 2
    else 0
  | Verdict.absent => 0

/-- Set updates performed by one iteration of the loop at server.py
817-844 (the `found_yellows.remove` only fires inside the paying `correct`
branch; `Finset.erase` is a no-op when the letter is absent, matching
`set.remove` being guarded by the membership test). -/
def stepSt (st : ScoreSt) (c : Char) (v : Verdict) : ScoreSt :=
  match v with
  | Verdict.correct =>
    if c ∉ st.greens ∧ c ∉ st.turn then
      { greens := insert c st.greens,
        yellows := st.yellows.erase c,
        turn := insert c st.turn }
    else st
  | Verdict.present =>
    if c ∉ st.greens ∧ c ∉ st.yellows ∧ c ∉ st.turn then
      { greens := st.greens,
        yellows := insert c st.yellows,
        turn := insert c st.turn }
    else st
  | Verdict.absent => st

/-- Run the whole points loop over the (letter, verdict) pairs of a guess. -/
def runGuess (st : ScoreSt) : List (Char × Verdict) → ScoreSt
  | [] => st
  | (c, v) :: rest => runGuess (stepSt st c v) rest

/-- `points_delta` accumulated by the loop at server.py 815-844. -/
def guessDelta (st : ScoreSt) : List (Char × Verdict) → ℚ
  | [] => 0
  | (c, v) :: rest => stepPay st c v + guessDelta (stepSt st c v) rest

/-- The part of `points_delta` attributable to occurrences of the letter
`x`: the sum of the per-iteration payments at positions whose letter is
`x`. -/
def payFor (x : Char) (st : ScoreSt) : List (Char × Verdict) → ℚ
  | [] => 0
  | (c, v) :: rest =>
    (if c = x then stepPay st c v else 0) + payFor x (stepSt st c v) rest

/-- Round-level view: each call of `guess_word` starts with a fresh
`global_found_this_turn = set()` while `found_greens`/`found_yellows`
persist across guesses of the round. -/
def roundPayFor (x : Char) (g y : Finset Char) : List (List (Char × Verdict)) → ℚ
  | [] => 0
  | ps :: rest =>
    let st := runGuess ⟨g, y, ∅⟩ ps
    payFor x ⟨g, y, ∅⟩ ps + roundPayFor x st.greens st.yellows rest

theorem runGuess_append (st : ScoreSt) (l₁ l₂ : List (Char × Verdict)) :
    runGuess st (l₁ ++ l₂) = runGuess (runGuess st l₁) l₂ := by
  induction l₁ generalizing st with
  | nil => rfl
  | cons p rest ih => cases p; simp [runGuess, ih]

theorem payFor_append (x : Char) (st : ScoreSt) (l₁ l₂ : List (Char × Verdict)) :
    payFor x st (l₁ ++ l₂) = payFor x st l₁ + payFor x (runGuess st l₁) l₂ := by
  induction l₁ generalizing st with
  | nil => simp [payFor, runGuess]
  | cons p rest ih =>
    cases p
    simp [payFor, runGuess, ih]
    ring

theorem step_greens_mono (st : ScoreSt) (c : Char) (v : Verdict) (x : Char)
    (h : x ∈ st.greens) : x ∈ (stepSt st c v).greens := by
  cases v <;> simp only [stepSt]
  · split <;> simp [h, Finset.mem_insert]
  · split <;> simp [h]
  · exact h

theorem step_turn_mono (st : ScoreSt) (c : Char) (v : Verdict) (x : Char)
    (h : x ∈ st.turn) : x ∈ (stepSt st c v).turn := by
  cases v <;> simp only [stepSt]
  · split <;> simp [h, Finset.mem_insert]
  · split <;> simp [h]
  · exact h

theorem step_other (st : ScoreSt) (c : Char) (v : Verdict) (x : Char)
    (hx : c ≠ x) :
    ((x ∈ (stepSt st c v).greens ↔ x ∈ st.greens) ∧
     (x ∈ (stepSt st c v).yellows ↔ x ∈ st.yellows) ∧
     (x ∈ (stepSt st c v).turn ↔ x ∈ st.turn)) := by
  cases v <;> simp only [stepSt]
  · split <;> simp [Finset.mem_insert, Finset.mem_erase, hx.symm, Ne.symm hx]
  · split <;> simp [Finset.mem_insert, hx.symm, Ne.symm hx]
  · simp

theorem stepPay_self_green (st : ScoreSt) (v : Verdict) (x : Char)
    (h : x ∈ st.greens) : stepPay st x v = 0 := by
  cases v <;> simp [stepPay, h]

theorem stepPay_self_turn (st : ScoreSt) (v : Verdict) (x : Char)
    (h : x ∈ st.turn) : stepPay st x v = 0 := by
  cases v <;> simp [stepPay, h]

theorem step_self_green_frozen (st : ScoreSt) (v : Verdict) (x : Char)
    (h : x ∈ st.greens) :
    (x ∈ (stepSt st x v).greens ↔ x ∈ st.greens) ∧
    (x ∈ (stepSt st x v).yellows ↔ x ∈ st.yellows) := by
  cases v <;> simp [stepSt, h]

theorem step_self_turn_frozen (st : ScoreSt) (v : Verdict) (x : Char)
    (h : x ∈ st.turn) :
    (x ∈ (stepSt st x v).greens ↔ x ∈ st.greens) ∧
    (x ∈ (stepSt st x v).yellows ↔ x ∈ st.yellows) := by
  cases v <;> simp [stepSt, h]

theorem payFor_of_green (x : Char) (st : ScoreSt) (l : List (Char × Verdict))
    (h : x ∈ st.greens) :
    payFor x st l = 0 ∧ x ∈ (runGuess st l).greens ∧
      (x ∈ (runGuess st l).yellows ↔ x ∈ st.yellows) := by
  induction l generalizing st with
  | nil => simpa [payFor, runGuess] using h
  | cons p rest ih =>
    obtain ⟨c, v⟩ := p
    by_cases hc : c = x
    · subst hc
      have hfroz := step_self_green_frozen st v c h
      have ihr := ih (stepSt st c v) (step_greens_mono st c v c h)
      refine ⟨?_, ihr.2.1, ?_⟩
      · simp [payFor, stepPay_self_green st v c h, ihr.1, runGuess]
      · simp [runGuess, ihr.2.2, hfroz.2]
    · have hoth := step_other st c v x hc
      have ihr := ih (stepSt st c v) (hoth.1.mpr h)
      refine ⟨?_, ihr.2.1, ?_⟩
      · simp [payFor, hc, ihr.1, runGuess]
      · simp [runGuess, ihr.2.2, hoth.2.1]

theorem payFor_of_turn (x : Char) (st : ScoreSt) (l : List (Char × Verdict))
    (h : x ∈ st.turn) :
    payFor x st l = 0 ∧ (x ∈ (runGuess st l).greens ↔ x ∈ st.greens) ∧
      (x ∈ (runGuess st l).yellows ↔ x ∈ st.yellows) := by
  induction l generalizing st with
  | nil => simp [payFor, runGuess]
  | cons p rest ih =>
    obtain ⟨c, v⟩ := p
    by_cases hc : c = x
    · subst hc
      have hfroz := step_self_turn_frozen st v c h
      have ihr := ih (stepSt st c v) (step_turn_mono st c v c h)
      refine ⟨?_, ?_, ?_⟩
      · simp [payFor, stepPay_self_turn st v c h, ihr.1, runGuess]
      · simp [runGuess, ihr.2.1, hfroz.1]
      · simp [runGuess, ihr.2.2, hfroz.2]
    · have hoth := step_other st c v x hc
      have ihr := ih (stepSt st c v) (hoth.2.2.mpr h)
      refine ⟨?_, ?_, ?_⟩
      · simp [payFor, hc, ihr.1, runGuess]
      · simp [runGuess, ihr.2.1, hoth.1]
      · simp [runGuess, ihr.2.2, hoth.2.1]

theorem payFor_not_occurring (x : Char) (st : ScoreSt)
    (l : List (Char × Verdict)) (h : ∀ p ∈ l, p.1 ≠ x) :
    payFor x st l = 0 ∧
      (x ∈ (runGuess st l).greens ↔ x ∈ st.greens) ∧
      (x ∈ (runGuess st l).yellows ↔ x ∈ st.yellows) ∧
      (x ∈ (runGuess st l).turn ↔ x ∈ st.turn) := by
  induction l generalizing st with
  | nil => simp [payFor, runGuess]
  | cons p rest ih =>
    obtain ⟨c, v⟩ := p
    have hc : c ≠ x := h (c, v) (List.mem_cons_self _ _)
    have hoth := step_other st c v x hc
    have ihr := ih (stepSt st c v) (fun q hq => h q (List.mem_cons_of_mem _ hq))
    refine ⟨?_, ?_, ?_, ?_⟩
    · simp [payFor, hc, ihr.1, runGuess]
    · simp [runGuess, ihr.2.1, hoth.1]
    · simp [runGuess, ihr.2.2.1, hoth.2.1]
    · simp [runGuess, ihr.2.2.2, hoth.2.2]

theorem payFor_first_correct (x : Char) (g y : Finset Char)
    (l₁ l₂ : List (Char × Verdict))
    (hg : x ∉ g) (hpre : ∀ p ∈ l₁, p.1 ≠ x) :
    payFor x ⟨g, y, ∅⟩ (l₁ ++ (x, Verdict.correct) :: l₂)
        = (if x ∈ y then scrabbleScore x / 2 else scrabbleScore x) ∧
      x ∈ (runGuess ⟨g, y, ∅⟩ (l₁ ++ (x, Verdict.correct) :: l₂)).greens ∧
      x ∉ (runGuess ⟨g, y, ∅⟩ (l₁ ++ (x, Verdict.correct) :: l₂)).yellows := by
  have hpref := payFor_not_occurring x ⟨g, y, ∅⟩ l₁ hpre
  set st1 := runGuess ⟨g, y, ∅⟩ l₁ with hst1
  have hg1 : x ∉ st1.greens := fun hmem => hg (hpref.2.1.mp hmem)
  have hy1 : x ∈ st1.yellows ↔ x ∈ y := hpref.2.2.1
  have ht1 : x ∉ st1.turn := fun hmem => by
    have := hpref.2.2.2.mp hmem
    simp at this
  have hpay : stepPay st1 x Verdict.correct
      = (if x ∈ y then scrabbleScore x / 2 else scrabbleScore x) := by
    simp [stepPay, hg1, ht1, hy1]
  have hgs : x ∈ (stepSt st1 x Verdict.correct).greens := by
    simp [stepSt, hg1, ht1]
  have hys : x ∉ (stepSt st1 x Verdict.correct).yellows := by
    simp [stepSt, hg1, ht1]
  have hsuf := payFor_of_green x (stepSt st1 x Verdict.correct) l₂ hgs
  refine ⟨?_, ?_, ?_⟩
  · rw [payFor_append, hpref.1, ← hst1]
    simp [payFor, hpay, hsuf.1]
  · rw [runGuess_append, ← hst1]
    simpa [runGuess] using hsuf.2.1
  · rw [runGuess_append, ← hst1]
    simp only [runGuess]
    exact fun hmem => hys (hsuf.2.2.mp hmem)

theorem payFor_first_present (x : Char) (g y : Finset Char)
    (l₁ l₂ : List (Char × Verdict))
    (hg : x ∉ g) (hy : x ∉ y) (hpre : ∀ p ∈ l₁, p.1 ≠ x) :
    payFor x ⟨g, y, ∅⟩ (l₁ ++ (x, Verdict.present) :: l₂)
        = scrabbleScore x / 2 ∧
      x ∈ (runGuess ⟨g, y, ∅⟩ (l₁ ++ (x, Verdict.present) :: l₂)).yellows ∧
      x ∉ (runGuess ⟨g, y, ∅⟩ (l₁ ++ (x, Verdict.present) :: l₂)).greens := by
  have hpref := payFor_not_occurring x ⟨g, y, ∅⟩ l₁ hpre
  set st1 := runGuess ⟨g, y, ∅⟩ l₁ with hst1
  have hg1 : x ∉ st1.greens := fun hmem => hg (hpref.2.1.mp hmem)
  have hy1 : x ∉ st1.yellows := fun hmem => hy (hpref.2.2.1.mp hmem)
  have ht1 : x ∉ st1.turn := fun hmem => by
    have := hpref.2.2.2.mp hmem
    simp at this
  have hpay : stepPay st1 x Verdict.present = scrabbleScore x / 2 := by
    simp [stepPay, hg1, hy1, ht1]
  have hts : x ∈ (stepSt st1 x Verdict.present).turn := by
    simp [stepSt, hg1, hy1, ht1]
  have hgs : x ∉ (stepSt st1 x Verdict.present).greens := by
    simp [stepSt, hg1, hy1, ht1, hg1]
  have hys : x ∈ (stepSt st1 x Verdict.present).yellows := by
    simp [stepSt, hg1, hy1, ht1]
  have hsuf := payFor_of_turn x (stepSt st1 x Verdict.present) l₂ hts
  refine ⟨?_, ?_, ?_⟩
  · rw [payFor_append, hpref.1, ← hst1]
    simp [payFor, hpay, hsuf.1]
  · rw [runGuess_append, ← hst1]
    simp only [runGuess]
    exact hsuf.2.2.mpr hys
  · rw [runGuess_append, ← hst1]
    simp only [runGuess]
    exact fun hmem => hgs (hsuf.2.1.mp hmem)

theorem roundPayFor_of_green (x : Char) (g y : Finset Char)
    (gs : List (List (Char × Verdict))) (h : x ∈ g) :
    roundPayFor x g y gs = 0 := by
  induction gs generalizing g y with
  | nil => rfl
  | cons ps rest ih =>
    have hp := payFor_of_green x ⟨g, y, ∅⟩ ps h
    simp only [roundPayFor]
    rw [hp.1, ih _ _ hp.2.1]
    ring

/-- C2 (amended): within a round (`found_greens`/`found_yellows` threading
across guesses, `global_found_this_turn` fresh per guess): (1) a letter
already in `found_greens` is never paid again by any later guess of the
round; (2) a `correct` verdict for a letter with no earlier occurrence of
that letter in the same guess pays the full table value when the letter was
never revealed, (3) or the remaining half when it was previously revealed
only `present`, clearing the `found_yellows` record; (4) a first-time
`present` reveal (again with no earlier same-guess occurrence) pays half
the table value and records the letter in `found_yellows` but not
`found_greens`; (5) a letter already scored earlier in the same guess
(member of `global_found_this_turn`) is paid nothing by the remaining
positions and its `found_greens` status is left unchanged — so a `correct`
verdict preceded by a `present` occurrence of the same letter in the same
guess does not mark the letter green, and a later guess may still be paid
the remaining half. -/
theorem C2_scoring_first_reveal_amended :
    (∀ (x : Char) (g y : Finset Char) (gs : List (List (Char × Verdict))),
        x ∈ g → roundPayFor x g y gs = 0) ∧
    (∀ (x : Char) (g y : Finset Char) (l₁ l₂ : List (Char × Verdict)),
        x ∉ g → x ∉ y → (∀ p ∈ l₁, p.1 ≠ x) →
        payFor x ⟨g, y, ∅⟩ (l₁ ++ (x, Verdict.correct) :: l₂)
            = scrabbleScore x ∧
          x ∈ (runGuess ⟨g, y, ∅⟩ (l₁ ++ (x, Verdict.correct) :: l₂)).greens) ∧
    (∀ (x : Char) (g y : Finset Char) (l₁ l₂ : List (Char × Verdict)),
        x ∉ g → x ∈ y → (∀ p ∈ l₁, p.1 ≠ x) →
        payFor x ⟨g, y, ∅⟩ (l₁ ++ (x, Verdict.correct) :: l₂)
            = scrabbleScore x / 2 ∧
          x ∈ (runGuess ⟨g, y, ∅⟩ (l₁ ++ (x, Verdict.correct) :: l₂)).greens ∧
          x ∉ (runGuess ⟨g, y, ∅⟩ (l₁ ++ (x, Verdict.correct) :: l₂)).yellows) ∧
    (∀ (x : Char) (g y : Finset Char) (l₁ l₂ : List (Char × Verdict)),
        x ∉ g → x ∉ y → (∀ p ∈ l₁, p.1 ≠ x) →
        payFor x ⟨g, y, ∅⟩ (l₁ ++ (x, Verdict.present) :: l₂)
            = scrabbleScore x / 2 ∧
          x ∈ (runGuess ⟨g, y, ∅⟩ (l₁ ++ (x, Verdict.present) :: l₂)).yellows ∧
          x ∉ (runGuess ⟨g, y, ∅⟩ (l₁ ++ (x, Verdict.present) :: l₂)).greens) ∧
    (∀ (x : Char) (st : ScoreSt) (l : List (Char × Verdict)),
        x ∈ st.turn → payFor x st l = 0 ∧
          (x ∈ (runGuess st l).greens ↔ x ∈ st.greens)) := by
  refine ⟨roundPayFor_of_green, ?_, ?_, payFor_first_present, ?_⟩
  · intro x g y l₁ l₂ hg hy hpre
    have h := payFor_first_correct x g y l₁ l₂ hg hpre
    rw [if_neg hy] at h
    exact ⟨h.1, h.2.1⟩
  · intro x g y l₁ l₂ hg hy hpre
    have h := payFor_first_correct x g y l₁ l₂ hg hpre
    rw [if_pos hy] at h
    exact h
  · intro x st l h
    have hp := payFor_of_turn x st l h
    exact ⟨hp.1, hp.2.1⟩

/-- C2 as stated fails on secret `sheep`: the first guess `seeps` reveals
`e` with a `correct` verdict (position 2) but, because the `present`
occurrence of `e` at position 1 is scored first inside the same guess, the
guess is paid only half the table value of `e` (1/2 instead of the full 1
the claim requires for a letter never previously revealed `present`), `e`
is not recorded in `found_greens`, and the later guess `sheep` is paid the
remaining half for `e` — so a later guess *is* paid again for a letter an
earlier guess revealed `correct`. -/
theorem C2_counterexample :
    (('e', Verdict.correct) ∈
        "seeps".data.zip (result_for_guess "seeps".data "sheep".data)) ∧
    payFor 'e' ⟨∅, ∅, ∅⟩
        ("seeps".data.zip (result_for_guess "seeps".data "sheep".data))
      = 1 / 2 ∧
    scrabbleScore 'e' = 1 ∧
    payFor 'e'
        ⟨(runGuess ⟨∅, ∅, ∅⟩
            ("seeps".data.zip (result_for_guess "seeps".data "sheep".data))).greens,
         (runGuess ⟨∅, ∅, ∅⟩
            ("seeps".data.zip (result_for_guess "seeps".data "sheep".data))).yellows,
         ∅⟩
        ("sheep".data.zip (result_for_guess "sheep".data "sheep".data))
      = 1 / 2 := by
  refine ⟨by decide, ?_, by decide, ?_⟩
  · simp +decide only [payFor, stepPay, stepSt, scrabbleScore, result_for_guess,
      pass1, pass2, consume, pool, List.zip, List.zipWith]
    norm_num
  · simp +decide only [runGuess, payFor, stepPay, stepSt, scrabbleScore,
      result_for_guess, pass1, pass2, consume, pool, List.zip, List.zipWith]
    norm_num

theorem C2_scoring_witness :
    payFor 'q' ⟨∅, ∅, ∅⟩ ([] ++ ('q', Verdict.correct) :: [])
        = scrabbleScore 'q' ∧
    roundPayFor 'a' {'a'} ∅ [[('a', Verdict.correct)]] = 0 :=
  ⟨(C2_scoring_first_reveal_amended.2.1 'q' ∅ ∅ [] []
      (by simp) (by simp) (by simp)).1,
    C2_scoring_first_reveal_amended.1 'a' {'a'} ∅ _ (by simp)⟩

/-- Lobby lifecycle phase (`GameState.phase` in models.py: `waiting`,
`active`, `finished`). -/
inductive Phase
  | waiting
  | active
  | finished
deriving DecidableEq, Repr

/-- One leaderboard entry (the dict stored at `leaderboard[emoji]`,
models.py / server.py).  The `used_yellow`/`used_green` lists are never
read by the verified operations and are omitted. -/
structure PlayerEntry where
  ip : String
  player_id : Option String
  score : ℚ
  last_active : ℚ
deriving DecidableEq, Repr

/-- One appended guess (`new_entry` built at server.py 795). -/
structure GuessEntry where
  guess : List Char
  result : List Verdict
  emoji : String
  ts : ℚ
deriving DecidableEq, Repr

/-- The fields of `GameState` (models.py 10-34) read or written by the
verified operations; chat, persistence and SSE-listener fields are
omitted.  Python dicts are association lists, Python sets `Finset`. -/
structure GameState where
  leaderboard : List (String × PlayerEntry)
  ip_to_emoji : List (String × String)
  player_map : List (String × String)
  winner_emoji : Option String
  target_word : List Char
  guesses : List GuessEntry
  is_over : Bool
  found_greens : Finset Char
  found_yellows : Finset Char
  win_timestamp : Option ℚ
  daily_double_index : Option Nat
  daily_double_winners : Finset String
  daily_double_pending : List (String × Nat)
  host_token : Option String
  phase : Phase
  last_activity : ℚ
deriving DecidableEq

/-- Dictionary lookup `d.get(k)`. -/
def alookup {α : Type} (k : String) : List (String × α) → Option α
  | [] => none
  | (k', v) :: rest => if k' = k then some v else alookup k rest

/-- Dictionary deletion `d.pop(k, None)`: dictionaries have unique keys, so
dropping every binding of `k` models removal of the key. -/
def aerase {α : Type} (k : String) (l : List (String × α)) : List (String × α) :=
  l.filter (fun kv => kv.1 ≠ k)

/-- Dictionary assignment `d[k] = v`. -/
def aupsert {α : Type} (k : String) (v : α) (l : List (String × α)) :
    List (String × α) :=
  (k, v) :: aerase k l

/-- In-place mutation of the value stored under an existing key
(`d[k]["field"] = ...`). -/
def aupdate {α : Type} (k : String) (f : α → α) (l : List (String × α)) :
    List (String × α) :=
  l.map (fun kv => if kv.1 = k then (kv.1, f kv.2) else kv)

/-- The token-shape test of the reconnection healing path (server.py
758-765): `len(tok) == 32` and every character drawn from the lowercase
hex alphabet `0123456789abcdef`. -/
def isHex32 (p : String) : Bool :=
  p.length == 32 && p.data.all (fun c => "0123456789abcdef".data.contains c)

/-- Identity check and reconnection healing of `guess_word` (server.py
749-785).  Given the leaderboard and `player_map`, the claimed emoji, the
presented `player_id` and the source address: a matching stored token
passes unchanged; a mismatch is healed (stored token replaced,
`player_map` rebound) exactly when the source address equals the
registered address and both tokens are 32-character lowercase-hex strings
(the `old_player_id and ...` truthiness test rejects an empty stored
token, which the length test subsumes); every other mismatch is rejected
(`none`, the HTTP 403 branch). -/
def resolveIdentity (lb : List (String × PlayerEntry)) (pm : List (String × String))
    (emoji : String) (pid : Option String) (ip : String) :
    Option (List (String × PlayerEntry) × List (String × String)) :=
  match alookup emoji lb with
  | none => none
  | some entry =>
    if entry.player_id = pid then some (lb, pm)
    else
      match pid, entry.player_id with
      | some p, some old =>
        if entry.ip = ip ∧ isHex32 p ∧ old ≠ "" ∧ isHex32 old then
          some (aupdate emoji (fun e => { e with player_id := some p }) lb,
                aupsert p emoji (aerase old pm))
        else none
      | _, _ => none

/-- `MAX_ROWS` (server.py 157 / game_logic.py 85). -/
def MAX_ROWS : Nat := 6

/-- `CLOSE_CALL_WINDOW = 2.0` seconds (server.py 72). -/
def CLOSE_CALL_WINDOW : ℚ := 2

/-- The close-call hint attached to the game-over rejection (server.py
728-743): present when the rejected guess equals the secret, a win
timestamp is recorded (Python float truthiness: a zero timestamp counts as
absent), the submitter is not the recorded winner, and the guess arrived
within `CLOSE_CALL_WINDOW` of the win; carries the millisecond delta
(`int(diff * 1000)`, i.e. the floor for the nonnegative delta) and the
winner's emoji. -/
def closeCallOf (s : GameState) (guess : List Char) (emoji : String) (now : ℚ) :
    Option (Int × Option String) :=
  if guess = s.target_word then
    match s.win_timestamp with
    | some ts =>
      if ts ≠ 0 ∧ some emoji ≠ s.winner_emoji then
        if now - ts ≤ CLOSE_CALL_WINDOW then
          some (Rat.floor ((now - ts) * 1000), s.winner_emoji)
        else none
      else none
    | none => none
  else none

/-- Hard-mode constraint aggregation `get_required_letters_and_positions`
(server.py 440-453): fold over all prior guesses collecting required
letters and last-written green positions. -/
def applyConstraint (guess : List Char) (acc : Finset Char × List (Nat × Char))
    (iv : Nat × Verdict) : Finset Char × List (Nat × Char) :=
  match iv.2 with
  | Verdict.correct =>
    (insert (guess.getD iv.1 ' ') acc.1,
      (iv.1, guess.getD iv.1 ' ') :: acc.2.filter (fun kv => kv.1 ≠ iv.1))
  | Verdict.present => (insert (guess.getD iv.1 ' ') acc.1, acc.2)
  | Verdict.absent => acc

def get_required_letters_and_positions (gs : List GuessEntry) :
    Finset Char × List (Nat × Char) :=
  gs.foldl
    (fun acc g => g.result.enum.foldl (fun a iv => applyConstraint g.guess a iv) acc)
    (∅, [])

/-- `validate_hard_mode` (server.py 456-469): every remembered green
position must recur and every previously revealed letter must reappear. -/
def validate_hard_mode (guess : List Char) (gs : List GuessEntry) : Bool :=
  let rp := get_required_letters_and_positions gs
  rp.2.all (fun kv => guess.getD kv.1 ' ' == kv.2) &&
    decide (∀ c ∈ rp.1, c ∈ guess)

/-- Daily Double award step of `guess_word` (server.py 798-813). -/
def applyDailyDouble (s : GameState) (emoji : String) (rowIndex : Nat)
    (result : List Verdict) : GameState × Bool :=
  match s.daily_double_index with
  | none => (s, false)
  | some idx =>
    let ddRow := idx / 5
    let ddCol := idx % 5
    if rowIndex = ddRow ∧ result.getD ddCol Verdict.absent = Verdict.correct ∧
        emoji ∉ s.daily_double_winners then
      ({ s with daily_double_winners := insert emoji s.daily_double_winners,
                daily_double_pending := aupsert emoji (rowIndex + 1) s.daily_double_pending },
        true)
    else (s, false)

/-- Win-bonus / loss-penalty / zero-point-penalty block of `guess_word`
(server.py 846-871), applied after the new guess has been appended:
a winning guess gets +3, sets the winner and ends the round; a non-winning
guess filling row `MAX_ROWS` ends the round with -3; a round that ends
moves the phase to `finished` (the synchronous definition fetch is an
external collaborator and is not modelled); a zero-point non-ending guess
gets -1.  Returns (state, points_delta, won, over). -/
def applyOutcome (s : GameState) (delta0 : ℚ) (guess : List Char)
    (emoji : String) (now : ℚ) : GameState × ℚ × Bool × Bool :=
  let won : Bool := decide (guess = s.target_word)
  let step1 :=
    if won then
      ({ s with winner_emoji := some emoji, is_over := true,
                win_timestamp := some now }, delta0 + 3, true)
    else if s.guesses.length = MAX_ROWS then
      ({ s with is_over := true }, delta0 - 3, true)
    else (s, delta0, false)
  let s1 := if step1.2.2 then { step1.1 with phase := Phase.finished } else step1.1
  let delta1 :=
    if step1.2.1 = 0 ∧ won = false ∧ step1.2.2 = false then step1.2.1 - 1
    else step1.2.1
  (s1, delta1, won, step1.2.2)

/-- `leaderboard[emoji]["score"] += points_delta` (server.py 873). -/
def updateScore (s : GameState) (emoji : String) (delta : ℚ) : GameState :=
  { s with leaderboard :=
      aupdate emoji (fun e => { e with score := e.score + delta }) s.leaderboard }

/-- The rejections `guess_word` can produce after the API rate-limit check
(which is modelled separately by `rateCheck`). -/
inductive GuessReject
  | gameOver (closeCall : Option (Int × Option String))
  | invalidWord
  | duplicateGuess
  | identityForbidden
  | hardModeViolation
deriving DecidableEq, Repr

/-- The structured result returned to the caller. -/
structure GuessOutcome where
  pointsDelta : ℚ
  won : Bool
  over : Bool
  dd_award : Bool
deriving DecidableEq, Repr

/-- The request-processing core of `guess_word` (server.py 699-901) after
rate limiting: activity/phase bump, game-over rejection with close-call
hint, word validation against the accepted list, duplicate rejection,
identity check with healing, hard mode, verdict computation, Daily Double,
discovery scoring, win/loss adjustment, score update. -/
def guessWord (words : List (List Char)) (s0 : GameState) (emoji : String)
    (pid : Option String) (ip : String) (guess : List Char) (now : ℚ) :
    Except GuessReject (GameState × GuessOutcome) :=
  let s := { s0 with last_activity := now,
                     phase := if s0.phase = Phase.waiting then Phase.active else s0.phase }
  if s.is_over then
    Except.error (GuessReject.gameOver (closeCallOf s guess emoji now))
  else if guess = [] ∨ guess.length ≠ 5 ∨ guess ∉ words then
    Except.error GuessReject.invalidWord
  else if guess ∈ s.guesses.map GuessEntry.guess then
    Except.error GuessReject.duplicateGuess
  else
    match resolveIdentity s.leaderboard s.player_map emoji pid ip with
    | none => Except.error GuessReject.identityForbidden
    | some (lb, pm) =>
      let s := { s with
        leaderboard := aupdate emoji (fun e => { e with last_active := now }) lb,
        player_map := pm }
      if ¬ validate_hard_mode guess s.guesses then
        Except.error GuessReject.hardModeViolation
      else
        let rowIndex := s.guesses.length
        let result := result_for_guess guess s.target_word
        let s := { s with guesses := s.guesses ++ [⟨guess, result, emoji, now⟩] }
        let dd := applyDailyDouble s emoji rowIndex result
        let s := dd.1
        let pairs := guess.zip result
        let delta0 := guessDelta ⟨s.found_greens, s.found_yellows, ∅⟩ pairs
        let fin := runGuess ⟨s.found_greens, s.found_yellows, ∅⟩ pairs
        let s := { s with found_greens := fin.greens, found_yellows := fin.yellows }
        let out := applyOutcome s delta0 guess emoji now
        let s := updateScore out.1 emoji out.2.1
        Except.ok (s, ⟨out.2.1, out.2.2.1, out.2.2.2, dd.2⟩)

/-- C7: in `guess_word`, a guess equal to the secret adds the fixed +3 win
bonus to the submitter's delta and ends the round (winner recorded, phase
`finished`); a non-winning guess that fills row `MAX_ROWS = 6` ends the
round with the fixed -3 penalty; a guess that earns zero discovery points
and does not end the round incurs the -1 penalty. -/
theorem C7_win_loss_penalty :
    (∀ (s : GameState) (delta : ℚ) (emoji : String) (now : ℚ),
        (applyOutcome s delta s.target_word emoji now).2.1 = delta + 3 ∧
        (applyOutcome s delta s.target_word emoji now).2.2.1 = true ∧
        (applyOutcome s delta s.target_word emoji now).2.2.2 = true ∧
        (applyOutcome s delta s.target_word emoji now).1.is_over = true ∧
        (applyOutcome s delta s.target_word emoji now).1.phase = Phase.finished ∧
        (applyOutcome s delta s.target_word emoji now).1.winner_emoji = some emoji) ∧
    (∀ (s : GameState) (delta : ℚ) (guess : List Char) (emoji : String) (now : ℚ),
        guess ≠ s.target_word → s.guesses.length = MAX_ROWS →
        (applyOutcome s delta guess emoji now).2.1 = delta - 3 ∧
        (applyOutcome s delta guess emoji now).2.2.1 = false ∧
        (applyOutcome s delta guess emoji now).2.2.2 = true ∧
        (applyOutcome s delta guess emoji now).1.is_over = true ∧
        (applyOutcome s delta guess emoji now).1.phase = Phase.finished) ∧
    (∀ (s : GameState) (guess : List Char) (emoji : String) (now : ℚ),
        guess ≠ s.target_word → s.guesses.length ≠ MAX_ROWS →
        (applyOutcome s 0 guess emoji now).2.1 = -1 ∧
        (applyOutcome s 0 guess emoji now).2.2.2 = false ∧
        (applyOutcome s 0 guess emoji now).1.is_over = s.is_over) := by
  refine ⟨?_, ?_, ?_⟩
  · intro s delta emoji now
    simp [applyOutcome]
  · intro s delta guess emoji now hne hrow
    simp [applyOutcome, hne, hrow]
  · intro s guess emoji now hne hrow
    simp [applyOutcome, hne, hrow]

/-- A minimal concrete lobby state used to instantiate the theorems. -/
def sampleState : GameState :=
  { leaderboard := [("dog",
      { ip := "10.0.0.1",
        player_id := some "0123456789abcdef0123456789abcdef",
        score := 0, last_active := 50 })],
    ip_to_emoji := [("10.0.0.1", "dog")],
    player_map := [("0123456789abcdef0123456789abcdef", "dog")],
    winner_emoji := none,
    target_word := "crate".data,
    guesses := [],
    is_over := false,
    found_greens := ∅,
    found_yellows := ∅,
    win_timestamp := none,
    daily_double_index := some 7,
    daily_double_winners := ∅,
    daily_double_pending := [],
    host_token := some "h",
    phase := Phase.waiting,
    last_activity := 50 }

/-- `sampleState` with six guesses already on the board. -/
def fullBoardState : GameState :=
  { sampleState with
    guesses := List.replicate 6 ⟨"quack".data, [], "dog", 10⟩ }

theorem C7_win_loss_penalty_witness :
    ((applyOutcome sampleState 2 sampleState.target_word "dog" 60).2.1 = 2 + 3 ∧
      (applyOutcome sampleState 2 sampleState.target_word "dog" 60).2.2.1 = true ∧
      (applyOutcome sampleState 2 sampleState.target_word "dog" 60).2.2.2 = true ∧
      (applyOutcome sampleState 2 sampleState.target_word "dog" 60).1.is_over = true ∧
      (applyOutcome sampleState 2 sampleState.target_word "dog" 60).1.phase
          = Phase.finished ∧
      (applyOutcome sampleState 2 sampleState.target_word "dog" 60).1.winner_emoji
          = some "dog") ∧
    ((applyOutcome fullBoardState 2 "quack".data "dog" 60).2.1 = 2 - 3 ∧
      (applyOutcome fullBoardState 2 "quack".data "dog" 60).2.2.2 = true) ∧
    ((applyOutcome sampleState 0 "quack".data "dog" 60).2.1 = -1 ∧
      (applyOutcome sampleState 0 "quack".data "dog" 60).2.2.2 = false) :=
  ⟨C7_win_loss_penalty.1 sampleState 2 "dog" 60,
   ⟨(C7_win_loss_penalty.2.1 fullBoardState 2 "quack".data "dog" 60
        (by decide) (by decide)).1,
    (C7_win_loss_penalty.2.1 fullBoardState 2 "quack".data "dog" 60
        (by decide) (by decide)).2.2.1⟩,
   ⟨(C7_win_loss_penalty.2.2 sampleState "quack".data "dog" 60
        (by decide) (by decide)).1,
    (C7_win_loss_penalty.2.2 sampleState "quack".data "dog" 60
        (by decide) (by decide)).2.1⟩⟩

/-- C8 (amended): a guess submitted after the round has finished is
rejected (`guessWord` returns the game-over error), and the rejection
carries the close-call hint (millisecond delta and winner's emoji) exactly
when the rejected guess equals the secret word, the submitter is *not* the
recorded winner, and the guess was submitted within 2 seconds of the
recorded winning timestamp.  The hypothesis that any recorded win
timestamp is positive reflects that `time.time()` readings are positive
(the Python code tests the timestamp for float truthiness). -/
theorem C8_close_call_amended :
    ∀ (words : List (List Char)) (s : GameState) (emoji : String)
      (pid : Option String) (ip : String) (guess : List Char) (now : ℚ),
      s.is_over = true →
      (∀ ts, s.win_timestamp = some ts → 0 < ts) →
      guessWord words s emoji pid ip guess now
          = Except.error (GuessReject.gameOver (closeCallOf s guess emoji now)) ∧
      ((closeCallOf s guess emoji now).isSome = true ↔
        (guess = s.target_word ∧ some emoji ≠ s.winner_emoji ∧
          ∃ ts, s.win_timestamp = some ts ∧ now - ts ≤ CLOSE_CALL_WINDOW)) := by
  intro words s emoji pid ip guess now hover hts
  constructor
  · simp only [guessWord, hover]
    rfl
  · by_cases hg : guess = s.target_word
    · rcases hwt : s.win_timestamp with _ | ts
      · simp [closeCallOf, hg, hwt]
      · have hne : ts ≠ 0 := ne_of_gt (hts ts hwt)
        by_cases hw : some emoji ≠ s.winner_emoji
        · by_cases htime : now - ts ≤ CLOSE_CALL_WINDOW
          · simp [closeCallOf, hg, hwt, hne, hw, htime]
            linarith
          · simp [closeCallOf, hg, hwt, hne, hw, htime]
            linarith [not_le.mp htime]
        · simp [closeCallOf, hg, hwt, hw]
    · simp [closeCallOf, hg]

/-- `sampleState` after a finished round won by `dog` at time 100. -/
def overState : GameState :=
  { sampleState with
    is_over := true
    phase := Phase.finished
    winner_emoji := some "dog"
    win_timestamp := some 100 }

/-- C8 as stated fails: in `overState` the round was won by `dog` at time
100; `dog` itself resubmits the secret `crate` at time 101 — the guess
equals the secret and arrives within 2 seconds of the winning guess, yet
the rejection carries no close-call hint because the submitter is the
recorded winner. -/
theorem C8_counterexample :
    ("crate".data = overState.target_word ∧
      overState.win_timestamp = some 100 ∧ (101 : ℚ) - 100 ≤ CLOSE_CALL_WINDOW) ∧
    closeCallOf overState "crate".data "dog" 101 = none ∧
    guessWord [] overState "dog" none "10.0.0.1" "crate".data 101
      = Except.error (GuessReject.gameOver none) := by
  have hnone : closeCallOf overState "crate".data "dog" 101 = none := by decide
  refine ⟨⟨by decide, by decide, ?_⟩, hnone, ?_⟩
  · norm_num [CLOSE_CALL_WINDOW]
  · have hgo : guessWord [] overState "dog" none "10.0.0.1" "crate".data 101
        = Except.error (GuessReject.gameOver
            (closeCallOf overState "crate".data "dog" 101)) := by
      simp only [guessWord]
      rfl
    rw [hgo, hnone]

theorem C8_close_call_witness :
    guessWord [] overState "dog" none "10.0.0.1" "trace".data 101
        = Except.error
            (GuessReject.gameOver (closeCallOf overState "trace".data "dog" 101)) ∧
    ((closeCallOf overState "trace".data "dog" 101).isSome = true ↔
      ("trace".data = overState.target_word ∧
        some "dog" ≠ overState.winner_emoji ∧
        ∃ ts, overState.win_timestamp = some ts ∧
          (101 : ℚ) - ts ≤ CLOSE_CALL_WINDOW)) :=
  C8_close_call_amended [] overState "dog" none "10.0.0.1" "trace".data 101
    (by decide)
    (fun ts h => by
      simp only [overState, sampleState] at h
      rw [← Option.some.inj h]
      norm_num)

theorem hex32_ne_empty (p : String) (h : isHex32 p = true) : p ≠ "" := by
  intro he
  rw [he] at h
  exact absurd h (by decide)

/-- C4: when a request's player token mismatches the token stored for its
claimed emoji, the identity is transparently rebound (stored token
replaced, `player_map` remapped) if and only if the source address equals
the address registered for the emoji and both the presented and the stored
token are 32-character lowercase-hexadecimal strings; any mismatch failing
these conditions is rejected regardless of token shape. -/
theorem C4_identity_healing :
    ∀ (lb : List (String × PlayerEntry)) (pm : List (String × String))
      (emoji : String) (pid : Option String) (ip : String) (entry : PlayerEntry),
      alookup emoji lb = some entry →
      entry.player_id ≠ pid →
      ((resolveIdentity lb pm emoji pid ip).isSome = true ↔
        (entry.ip = ip ∧
          (∃ p, pid = some p ∧ isHex32 p = true) ∧
          (∃ old, entry.player_id = some old ∧ isHex32 old = true))) ∧
      (∀ p old, pid = some p → entry.player_id = some old → entry.ip = ip →
        isHex32 p = true → isHex32 old = true →
        resolveIdentity lb pm emoji pid ip =
          some (aupdate emoji (fun e => { e with player_id := some p }) lb,
                aupsert p emoji (aerase old pm))) := by
  intro lb pm emoji pid ip entry hlook hmis
  obtain ⟨eip, epid, esc, ela⟩ := entry
  have hmis' : epid ≠ pid := hmis
  constructor
  · rcases pid with _ | p
    · rcases epid with _ | old
      · exact absurd rfl hmis'
      · simp [resolveIdentity, hlook]
    · rcases epid with _ | old
      · simp [resolveIdentity, hlook]
      · by_cases hcond : eip = ip ∧ isHex32 p = true ∧ old ≠ "" ∧ isHex32 old = true
        · have hres : resolveIdentity lb pm emoji (some p) ip =
              some (aupdate emoji (fun e => { e with player_id := some p }) lb,
                    aupsert p emoji (aerase old pm)) := by
            simp only [resolveIdentity, hlook]
            rw [if_neg hmis']
            exact if_pos hcond
          rw [hres]
          simp only [Option.isSome_some, true_iff]
          exact ⟨hcond.1, ⟨p, rfl, hcond.2.1⟩, ⟨old, rfl, hcond.2.2.2⟩⟩
        · have hres : resolveIdentity lb pm emoji (some p) ip = none := by
            simp only [resolveIdentity, hlook]
            rw [if_neg hmis']
            exact if_neg hcond
          rw [hres]
          simp only [Option.isSome_none, Bool.false_eq_true, false_iff]
          intro ⟨hip, ⟨p', hp', hhex⟩, ⟨old', hold', hhex'⟩⟩
          obtain rfl : p = p' := Option.some.inj hp'
          obtain rfl : old = old' := Option.some.inj hold'
          exact hcond ⟨hip, hhex, hex32_ne_empty old hhex', hhex'⟩
  · intro p old hp hold hip hhex hhex'
    subst hp
    obtain rfl : epid = some old := hold
    simp only [resolveIdentity, hlook]
    rw [if_neg hmis']
    exact if_pos ⟨hip, hhex, hex32_ne_empty old hhex', hhex'⟩

theorem C4_identity_healing_witness :
    resolveIdentity sampleState.leaderboard sampleState.player_map "dog"
        (some "fedcba9876543210fedcba9876543210") "10.0.0.1"
      = some
          (aupdate "dog"
            (fun e => { e with player_id := some "fedcba9876543210fedcba9876543210" })
            sampleState.leaderboard,
           aupsert "fedcba9876543210fedcba9876543210" "dog"
            (aerase "0123456789abcdef0123456789abcdef" sampleState.player_map)) :=
  (C4_identity_healing sampleState.leaderboard sampleState.player_map "dog"
      (some "fedcba9876543210fedcba9876543210") "10.0.0.1"
      { ip := "10.0.0.1", player_id := some "0123456789abcdef0123456789abcdef",
        score := 0, last_active := 50 }
      (by decide) (by decide)).2
    "fedcba9876543210fedcba9876543210" "0123456789abcdef0123456789abcdef"
    rfl rfl rfl (by decide) (by decide)

/-- Sliding-window admission check: the common pattern of
`check_guess_rate_limit` (server.py 409-420) and the per-address creation
limiter inline in `lobby_create` (server.py 1045-1050): timestamps older
than the window are discarded (`now - t < window` is the retention test),
then the request is rejected when the retained count has reached the
limit, else `now` is appended and the request admitted.  Returns
(admitted?, updated queue). -/
def rateCheck (limit : Nat) (window : ℚ) (times : List ℚ) (now : ℚ) :
    Bool × List ℚ :=
  let ts := times.filter (fun t => decide (now - t < window))
  if limit ≤ ts.length then (false, ts) else (true, ts ++ [now])

/-- `check_guess_rate_limit` (server.py 409-420):
`GUESS_RATE_LIMIT = 30` per `GUESS_RATE_WINDOW = 60` seconds per player. -/
def check_guess_rate_limit (times : List ℚ) (now : ℚ) : Bool × List ℚ :=
  rateCheck 30 60 times now

/-- The per-source-address creation limiter of `lobby_create` (server.py
1045-1050): `LOBBY_CREATION_LIMIT = 5` per `LOBBY_CREATION_WINDOW = 60`
seconds. -/
def lobbyCreateRateCheck (times : List ℚ) (now : ℚ) : Bool × List ℚ :=
  rateCheck 5 60 times now

/-- Fold a stream of request times through the limiter, returning the
subsequence of admitted timestamps. -/
def limiterAdmitted (limit : Nat) (window : ℚ) (q : List ℚ) :
    List ℚ → List ℚ
  | [] => []
  | t :: ts =>
    let r := rateCheck limit window q t
    (if r.1 then [t] else []) ++ limiterAdmitted limit window r.2 ts

theorem limiter_run_bound (limit : Nat) (window : ℚ) :
    ∀ reqs : List ℚ, reqs.Pairwise (· ≤ ·) →
      ∀ (q A : List ℚ) (lo : ℚ), (∀ r ∈ reqs, lo ≤ r) →
      (∀ x : ℚ, lo - window ≤ x →
        A.countP (fun a => decide (x < a)) ≤ q.countP (fun a => decide (x < a))) →
      (∀ s : ℚ,
        A.countP (fun a => decide (s < a) && decide (a ≤ s + window)) ≤ limit) →
      ∀ s : ℚ, (A ++ limiterAdmitted limit window q reqs).countP
          (fun a => decide (s < a) && decide (a ≤ s + window)) ≤ limit := by
  intro reqs
  induction reqs with
  | nil =>
    intro _ q A lo _ _ hgood s
    simpa [limiterAdmitted] using hgood s
  | cons t ts ih =>
    intro hpair q A lo hlo hinv hgood s
    have hts : ∀ r ∈ ts, t ≤ r := (List.pairwise_cons.mp hpair).1
    have hpair' : ts.Pairwise (· ≤ ·) := (List.pairwise_cons.mp hpair).2
    have hlot : lo ≤ t := hlo t (List.mem_cons_self _ _)
    have hq1count : ∀ x : ℚ, t - window ≤ x →
        (q.filter (fun a => decide (t - a < window))).countP
            (fun a => decide (x < a))
          = q.countP (fun a => decide (x < a)) := by
      intro x hx
      rw [List.countP_filter]
      apply List.countP_congr
      intro a _
      by_cases hxa : x < a
      · have h2 : t - a < window := by linarith
        simp [hxa, h2]
      · simp [hxa]
    have hinv₁ : ∀ x : ℚ, t - window ≤ x →
        A.countP (fun a => decide (x < a))
          ≤ (q.filter (fun a => decide (t - a < window))).countP
              (fun a => decide (x < a)) := by
      intro x hx
      rw [hq1count x hx]
      exact hinv x (by linarith)
    by_cases hlen :
        limit ≤ (q.filter (fun a => decide (t - a < window))).length
    · have hrc : rateCheck limit window q t =
          (false, q.filter (fun a => decide (t - a < window))) := by
        simp only [rateCheck]
        rw [if_pos hlen]
      have hrw : limiterAdmitted limit window q (t :: ts)
          = limiterAdmitted limit window
              (q.filter (fun a => decide (t - a < window))) ts := by
        simp only [limiterAdmitted, hrc]
        simp
      rw [hrw]
      exact ih hpair' _ A t hts hinv₁ hgood s
    · have hrc : rateCheck limit window q t =
          (true, q.filter (fun a => decide (t - a < window)) ++ [t]) := by
        simp only [rateCheck]
        rw [if_neg hlen]
      have hrw : limiterAdmitted limit window q (t :: ts)
          = t :: limiterAdmitted limit window
              (q.filter (fun a => decide (t - a < window)) ++ [t]) ts := by
        simp only [limiterAdmitted, hrc]
        simp
      rw [hrw]
      have hgood' : ∀ s' : ℚ,
          (A ++ [t]).countP
              (fun a => decide (s' < a) && decide (a ≤ s' + window)) ≤ limit := by
        intro s'
        rw [List.countP_append]
        by_cases hin : s' < t ∧ t ≤ s' + window
        · have h1 : A.countP (fun a => decide (s' < a) && decide (a ≤ s' + window))
              ≤ A.countP (fun a => decide (s' < a)) :=
            List.countP_mono_left (fun a _ h => by
              simp only [Bool.and_eq_true] at h
              exact h.1)
          have h2 := hinv₁ s' (by linarith [hin.2])
          have h3 : (q.filter (fun a => decide (t - a < window))).countP
              (fun a => decide (s' < a))
              ≤ (q.filter (fun a => decide (t - a < window))).length :=
            List.countP_le_length _
          have h4 : List.countP
              (fun a => decide (s' < a) && decide (a ≤ s' + window)) [t] ≤ 1 := by
            simp only [List.countP_cons, List.countP_nil]
            split <;> omega
          have hq : (q.filter (fun a => decide (t - a < window))).length < limit :=
            Nat.lt_of_not_le hlen
          omega
        · have h4 : List.countP
              (fun a => decide (s' < a) && decide (a ≤ s' + window)) [t] = 0 := by
            rcases not_and_or.mp hin with h | h <;>
              simp [List.countP_cons, h]
          rw [h4]
          simpa using hgood s'
      have hinv' : ∀ x : ℚ, t - window ≤ x →
          (A ++ [t]).countP (fun a => decide (x < a))
            ≤ (q.filter (fun a => decide (t - a < window)) ++ [t]).countP
                (fun a => decide (x < a)) := by
        intro x hx
        rw [List.countP_append, List.countP_append]
        exact Nat.add_le_add_right (hinv₁ x hx) _
      have hfin := ih hpair' _ (A ++ [t]) t hts hinv' hgood' s
      rw [List.append_assoc] at hfin
      simpa using hfin

theorem limiter_window_bound (limit : Nat) (window : ℚ) (reqs : List ℚ)
    (hsort : reqs.Pairwise (· ≤ ·)) (s : ℚ) :
    (limiterAdmitted limit window [] reqs).countP
        (fun a => decide (s < a) && decide (a ≤ s + window)) ≤ limit := by
  cases reqs with
  | nil => simp [limiterAdmitted]
  | cons t ts =>
    have h := limiter_run_bound limit window (t :: ts) hsort [] [] t
      (by
        intro r hr
        rcases List.mem_cons.mp hr with rfl | hr'
        · exact le_refl r
        · exact (List.pairwise_cons.mp hsort).1 r hr')
      (by intro x _; simp)
      (by intro s'; simp)
      s
    simpa using h

theorem rateCheck_resume (limit : Nat) (window : ℚ) (hl : 0 < limit)
    (q : List ℚ) (now : ℚ) (h : ∀ t ∈ q, window ≤ now - t) :
    (rateCheck limit window q now).1 = true := by
  have hfil : q.filter (fun t => decide (now - t < window)) = [] := by
    rw [List.filter_eq_nil_iff]
    intro t ht
    simp only [decide_eq_true_eq, not_lt]
    exact h t ht
  simp only [rateCheck, hfil]
  rw [if_neg (by simpa using Nat.not_le.mpr hl)]

theorem rateCheck_pruned (limit : Nat) (window : ℚ) (hw : 0 < window)
    (q : List ℚ) (now t : ℚ) (h : t ∈ (rateCheck limit window q now).2) :
    now - t < window := by
  simp only [rateCheck] at h
  by_cases hlen : limit ≤ (q.filter (fun a => decide (now - a < window))).length
  · rw [if_pos hlen] at h
    simp only at h
    simpa using (List.mem_filter.mp h).2
  · rw [if_neg hlen] at h
    simp only at h
    rcases List.mem_append.mp h with h1 | h1
    · simpa using (List.mem_filter.mp h1).2
    · obtain rfl : t = now := by simpa using h1
      simpa using hw

unseal Rat.sub in
/-- C5: for every key (the queues are per key), the sliding-window limiter
admits at most N requests in any window of the configured length, reading
"window" as a half-open interval of that length (N = 30 per 60 s for
guesses via `check_guess_rate_limit`, N = 5 per 60 s for lobby creation):
over any chronologically ordered request stream, at most N admitted
timestamps fall in any interval of length 60; exactly N are admitted when
31 requests arrive together (the 31st in-window request is rejected);
admission resumes once all queued timestamps have aged at least the window
out; and every timestamp retained after a check lies inside the window. -/
theorem C5_rate_limiter :
    (∀ reqs : List ℚ, reqs.Pairwise (· ≤ ·) → ∀ s : ℚ,
        (limiterAdmitted 30 60 [] reqs).countP
            (fun a => decide (s < a) && decide (a ≤ s + 60)) ≤ 30) ∧
    (∀ reqs : List ℚ, reqs.Pairwise (· ≤ ·) → ∀ s : ℚ,
        (limiterAdmitted 5 60 [] reqs).countP
            (fun a => decide (s < a) && decide (a ≤ s + 60)) ≤ 5) ∧
    limiterAdmitted 30 60 [] (List.replicate 31 0) = List.replicate 30 0 ∧
    (check_guess_rate_limit (List.replicate 30 0) 0).1 = false ∧
    (∀ (q : List ℚ) (now : ℚ), (∀ t ∈ q, 60 ≤ now - t) →
        (check_guess_rate_limit q now).1 = true) ∧
    (∀ (q : List ℚ) (now t : ℚ), t ∈ (check_guess_rate_limit q now).2 →
        now - t < 60) ∧
    (∀ (q : List ℚ) (now : ℚ), (∀ t ∈ q, 60 ≤ now - t) →
        (lobbyCreateRateCheck q now).1 = true) := by
  refine ⟨?_, ?_, ?_, ?_, ?_, ?_, ?_⟩
  · intro reqs hs s
    exact limiter_window_bound 30 60 reqs hs s
  · intro reqs hs s
    exact limiter_window_bound 5 60 reqs hs s
  · decide
  · decide
  · intro q now h
    exact rateCheck_resume 30 60 (by norm_num) q now h
  · intro q now t h
    exact rateCheck_pruned 30 60 (by norm_num) q now t h
  · intro q now h
    exact rateCheck_resume 5 60 (by norm_num) q now h

theorem C5_rate_limiter_witness :
    (limiterAdmitted 30 60 [] [0, 10]).countP
        (fun a => decide ((0 : ℚ) < a) && decide (a ≤ 0 + 60)) ≤ 30 ∧
    (check_guess_rate_limit [] 100).1 = true :=
  ⟨C5_rate_limiter.1 [0, 10] (by decide) 0,
   C5_rate_limiter.2.2.2.2.1 [] 100 (by
     intro t ht
     exact absurd ht (List.not_mem_nil t))⟩

/-- `DEFAULT_LOBBY` (server.py 218). -/
def DEFAULT_LOBBY : String := "DEFAULT"

/-- `LOBBY_TTL = 30 * 60` seconds (server.py 174). -/
def LOBBY_TTL : ℚ := 30 * 60

/-- `REMOVAL_COOLDOWN = 30.0` seconds (server.py 215). -/
def REMOVAL_COOLDOWN : ℚ := 30

/-- `_do_purge_lobbies` (server.py 290-311): evict every non-default lobby
idle beyond `LOBBY_TTL` that is `finished` or has an empty leaderboard;
drop removal-cooldown entries older than twice the cooldown.
`force_purge_lobbies` (server.py 280-287) runs exactly this, bypassing the
purge rate limit (the `_last_purge_time` bookkeeping has no effect on the
registry contents). -/
def force_purge_lobbies (lobbies : List (String × GameState))
    (removed : List (String × ℚ)) (now : ℚ) :
    List (String × GameState) × List (String × ℚ) :=
  (lobbies.filter (fun cs =>
      decide (cs.1 = DEFAULT_LOBBY ∨
        ¬ (now - cs.2.last_activity > LOBBY_TTL ∧
            (cs.2.phase = Phase.finished ∨ cs.2.leaderboard.isEmpty)))),
   removed.filter (fun rt => decide (¬ (now - rt.2 > REMOVAL_COOLDOWN * 2))))

theorem keys_nodup_eq {α : Type} (l : List (String × α))
    (h : (l.map Prod.fst).Nodup) (k : String) (a b : α)
    (ha : (k, a) ∈ l) (hb : (k, b) ∈ l) : a = b := by
  induction l with
  | nil => exact absurd ha (List.not_mem_nil _)
  | cons kv rest ih =>
    obtain ⟨k', v⟩ := kv
    have hnd := List.nodup_cons.mp h
    rcases List.mem_cons.mp ha with h1 | h1 <;>
      rcases List.mem_cons.mp hb with h2 | h2
    · injection h1 with e1 e2
      injection h2 with e3 e4
      rw [e2, e4]
    · injection h1 with e1 e2
      subst e1
      exact absurd (List.mem_map_of_mem Prod.fst h2) hnd.1
    · injection h2 with e3 e4
      subst e3
      exact absurd (List.mem_map_of_mem Prod.fst h1) hnd.1
    · exact ih hnd.2 h1 h2

/-- C3 (amended): after `force_purge_lobbies`, every non-default lobby
with zero players idle past the TTL is absent from the registry; and a
lobby that still has players *and is not in the `finished` phase* is never
purged regardless of idle time.  (A `finished` lobby idle past the TTL is
purged even when players remain — see the counterexample.) -/
theorem C3_purge_amended :
    (∀ (lobbies : List (String × GameState)) (removed : List (String × ℚ))
        (now : ℚ) (code : String) (st : GameState),
        (lobbies.map Prod.fst).Nodup →
        (code, st) ∈ lobbies → code ≠ DEFAULT_LOBBY →
        st.leaderboard = [] → now - st.last_activity > LOBBY_TTL →
        ∀ st', (code, st') ∉ (force_purge_lobbies lobbies removed now).1) ∧
    (∀ (lobbies : List (String × GameState)) (removed : List (String × ℚ))
        (now : ℚ) (code : String) (st : GameState),
        (code, st) ∈ lobbies →
        st.leaderboard ≠ [] → st.phase ≠ Phase.finished →
        (code, st) ∈ (force_purge_lobbies lobbies removed now).1) := by
  constructor
  · intro lobbies removed now code st hnd hmem hcode hempty hidle st' hmem'
    have hmem'' : (code, st') ∈ lobbies :=
      List.mem_of_mem_filter hmem'
    obtain rfl : st = st' := keys_nodup_eq lobbies hnd code st st' hmem hmem''
    have hcond := (List.mem_filter.mp hmem').2
    simp only [decide_eq_true_eq] at hcond
    rcases hcond with h | h
    · exact hcode h
    · exact h ⟨hidle, Or.inr (by simp [hempty, List.isEmpty])⟩
  · intro lobbies removed now code st hmem hplayers hfin
    apply List.mem_filter.mpr
    refine ⟨hmem, ?_⟩
    simp only [decide_eq_true_eq]
    right
    intro ⟨_, hor⟩
    rcases hor with h | h
    · exact hfin h
    · exact hplayers (List.isEmpty_iff.mp h)

/-- `sampleState`, finished, one player still on the leaderboard, long
idle. -/
def finishedLobbyState : GameState :=
  { sampleState with
    phase := Phase.finished
    last_activity := 0
    is_over := true }

unseal Rat.sub Rat.mul in
/-- C3 as stated fails: a `finished` lobby that still has a player and has
been idle past the TTL *is* purged — `force_purge_lobbies` on a registry
holding only such a lobby leaves the registry empty, while the claim says
a lobby that still has players is never purged. -/
theorem C3_counterexample :
    finishedLobbyState.leaderboard ≠ [] ∧
    (2000 : ℚ) - finishedLobbyState.last_activity > LOBBY_TTL ∧
    (force_purge_lobbies [("ABC123", finishedLobbyState)] [] 2000).1 = [] := by
  refine ⟨by decide, by decide, by decide⟩

/-- `sampleState` with nobody on the leaderboard, long idle. -/
def emptyLobbyState : GameState :=
  { sampleState with
    leaderboard := []
    ip_to_emoji := []
    player_map := []
    last_activity := 0 }

unseal Rat.sub Rat.mul in
theorem C3_purge_witness :
    (∀ st', ("ABC123", st')
        ∉ (force_purge_lobbies [("ABC123", emptyLobbyState)] [] 2000).1) ∧
    ("ABC123", sampleState)
        ∈ (force_purge_lobbies [("ABC123", sampleState)] [] 2000).1 :=
  ⟨C3_purge_amended.1 [("ABC123", emptyLobbyState)] [] 2000 "ABC123"
      emptyLobbyState (by decide) (by decide) (by decide) (by decide) (by decide),
   C3_purge_amended.2 [("ABC123", sampleState)] [] 2000 "ABC123" sampleState
      (by decide) (by decide) (by decide)⟩

theorem alookup_aerase {α : Type} (k : String) (l : List (String × α)) :
    alookup k (aerase k l) = none := by
  induction l with
  | nil => rfl
  | cons kv rest ih =>
    obtain ⟨k', v⟩ := kv
    simp only [aerase, ne_eq, decide_not] at ih ⊢
    by_cases h : k' = k
    · simp [h, ih]
    · simp [alookup, h, ih]

theorem alookup_aupsert {α : Type} (k : String) (v : α) (l : List (String × α)) :
    alookup k (aupsert k v l) = some v := by
  simp [aupsert, alookup]

/-- `get_lobby` (server.py 243-260): return the stored lobby for `code`;
when absent, a code whose recorded removal time is truthy (nonzero) and
younger than `REMOVAL_COOLDOWN` yields `none` (the caller turns this into
a 404 instead of recreating the lobby); otherwise a fresh lobby is
instantiated and registered (its contents — persisted snapshot, fresh
word — come from external collaborators and are passed in as `fresh`). -/
def get_lobby (lobbies : List (String × GameState)) (removed : List (String × ℚ))
    (code : String) (now : ℚ) (fresh : GameState) :
    Option GameState × List (String × GameState) :=
  match alookup code lobbies with
  | some st => (some st, lobbies)
  | none =>
    match alookup code removed with
    | some rt =>
      if rt ≠ 0 ∧ now - rt < REMOVAL_COOLDOWN then (none, lobbies)
      else (some fresh, aupsert code fresh lobbies)
    | none => (some fresh, aupsert code fresh lobbies)

/-- The rejections of `leave_lobby` / `kick_player`. -/
inductive LeaveReject
  | noSuchLobby
  | missingEmoji
  | missingPlayerId
  | notInLobby
  | invalidCredentials
  | invalidHostToken
deriving DecidableEq, Repr

/-- `leave_lobby` (server.py 1231-1291) for lobby `code`: validates the
caller (with the same restart-healing test as `guess_word`), removes the
player's leaderboard entry, address/token indices and pending hint, clears
a winner reference, and — when the lobby is now empty and not the default
lobby — evicts it from the registry and records the removal time.
Returns (registry, removal table, lobby_removed flag). -/
def leave_lobby (lobbies : List (String × GameState)) (removed : List (String × ℚ))
    (code : String) (emoji : String) (pid : Option String) (ip : String)
    (now : ℚ) :
    Except LeaveReject
      (List (String × GameState) × List (String × ℚ) × Bool) :=
  match alookup code lobbies with
  | none => Except.error LeaveReject.noSuchLobby
  | some s =>
    if emoji = "" then Except.error LeaveReject.missingEmoji
    else
      match pid with
      | none => Except.error LeaveReject.missingPlayerId
      | some p =>
        match alookup emoji s.leaderboard with
        | none => Except.error LeaveReject.notInLobby
        | some entry =>
          let healed :=
            if entry.player_id = some p then some s
            else
              match entry.player_id with
              | some old =>
                if entry.ip = ip ∧ isHex32 p ∧ old ≠ "" ∧ isHex32 old then
                  some { s with
                    leaderboard := aupdate emoji
                      (fun e => { e with player_id := some p }) s.leaderboard,
                    player_map := aupsert p emoji (aerase old s.player_map) }
                else none
              | none => none
          match healed with
          | none => Except.error LeaveReject.invalidCredentials
          | some s1 =>
            let s2 := { s1 with
              leaderboard := aerase emoji s1.leaderboard,
              ip_to_emoji := aerase entry.ip s1.ip_to_emoji,
              player_map := aerase p s1.player_map,
              daily_double_pending := aerase emoji s1.daily_double_pending,
              winner_emoji :=
                if s1.winner_emoji = some emoji then none else s1.winner_emoji }
            if code ≠ DEFAULT_LOBBY ∧ s2.leaderboard.isEmpty then
              Except.ok (aerase code lobbies, aupsert code now removed, true)
            else
              Except.ok (aupsert code { s2 with last_activity := now } lobbies,
                removed, false)

/-- `kick_player` (server.py 1180-1213) for lobby `code`: host-token
gated removal of a player; evicts the lobby and records the removal time
when it becomes empty (non-default lobbies only). -/
def kick_player (lobbies : List (String × GameState)) (removed : List (String × ℚ))
    (code : String) (emoji : String) (token : Option String) (now : ℚ) :
    Except LeaveReject
      (List (String × GameState) × List (String × ℚ) × Bool) :=
  match alookup code lobbies with
  | none => Except.error LeaveReject.noSuchLobby
  | some s =>
    if emoji = "" then Except.error LeaveReject.missingEmoji
    else if token ≠ s.host_token then Except.error LeaveReject.invalidHostToken
    else
      match alookup emoji s.leaderboard with
      | none => Except.error LeaveReject.notInLobby
      | some entry =>
        let s2 := { s with
          leaderboard := aerase emoji s.leaderboard,
          ip_to_emoji := aerase entry.ip s.ip_to_emoji,
          player_map :=
            match entry.player_id with
            | some p => aerase p s.player_map
            | none => s.player_map,
          daily_double_pending := aerase emoji s.daily_double_pending,
          winner_emoji :=
            if s.winner_emoji = some emoji then none else s.winner_emoji }
        if code ≠ DEFAULT_LOBBY ∧ s2.leaderboard.isEmpty then
          Except.ok (aerase code lobbies, aupsert code now removed, true)
        else
          Except.ok (aupsert code s2 lobbies, removed, false)

/-- C6: when the last player of a non-default lobby leaves (or is
kicked), the lobby is removed from the registry immediately and a
removal-cooldown entry carrying the removal time is recorded; a subsequent
lookup strictly within `REMOVAL_COOLDOWN` (30 s) of the removal — in
particular an immediate one — returns not-found instead of recreating the
lobby, and a lookup at or after the cooldown recreates it. -/
theorem C6_lobby_removal_cooldown :
    ∀ (lobbies : List (String × GameState)) (removed : List (String × ℚ))
      (code : String) (s : GameState) (emoji : String) (entry : PlayerEntry)
      (p : String) (ip : String) (now : ℚ),
      alookup code lobbies = some s →
      s.leaderboard = [(emoji, entry)] →
      entry.player_id = some p →
      code ≠ DEFAULT_LOBBY →
      emoji ≠ "" →
      0 < now →
      (leave_lobby lobbies removed code emoji (some p) ip now
          = Except.ok (aerase code lobbies, aupsert code now removed, true)) ∧
      (kick_player lobbies removed code emoji s.host_token now
          = Except.ok (aerase code lobbies, aupsert code now removed, true)) ∧
      alookup code (aerase code lobbies) = none ∧
      alookup code (aupsert code now removed) = some now ∧
      (∀ (t' : ℚ) (fresh : GameState), t' - now < REMOVAL_COOLDOWN →
        (get_lobby (aerase code lobbies) (aupsert code now removed)
            code t' fresh).1 = none) ∧
      (∀ (t' : ℚ) (fresh : GameState), REMOVAL_COOLDOWN ≤ t' - now →
        (get_lobby (aerase code lobbies) (aupsert code now removed)
            code t' fresh).1 = some fresh) := by
  intro lobbies removed code s emoji entry p ip now hlook hlb hpid hcode hemoji hnow
  have hlookemoji : alookup emoji s.leaderboard = some entry := by
    rw [hlb]
    simp [alookup]
  have herase : aerase emoji s.leaderboard = [] := by
    rw [hlb]
    simp [aerase]
  refine ⟨?_, ?_, alookup_aerase code lobbies, alookup_aupsert code now removed,
    ?_, ?_⟩
  · simp only [leave_lobby, hlook]
    rw [if_neg hemoji]
    simp only [hlookemoji, hpid]
    simp [herase, hcode]
  · simp only [kick_player, hlook]
    rw [if_neg hemoji]
    rw [if_neg (fun h => h rfl)]
    simp only [hlookemoji]
    simp [herase, hcode]
  · intro t' fresh ht'
    simp only [get_lobby, alookup_aerase, alookup_aupsert]
    rw [if_pos ⟨ne_of_gt hnow, ht'⟩]
  · intro t' fresh ht'
    simp only [get_lobby, alookup_aerase, alookup_aupsert]
    rw [if_neg (fun hc => absurd hc.2 (not_lt.mpr ht'))]

theorem C6_lobby_removal_cooldown_witness :
    (leave_lobby [("ABC123", sampleState)] [] "ABC123" "dog"
        (some "0123456789abcdef0123456789abcdef") "10.0.0.1" 100
      = Except.ok (aerase "ABC123" [("ABC123", sampleState)],
          aupsert "ABC123" (100 : ℚ) [], true)) ∧
    (get_lobby (aerase "ABC123" [("ABC123", sampleState)])
        (aupsert "ABC123" (100 : ℚ) []) "ABC123" 110 sampleState).1 = none ∧
    (get_lobby (aerase "ABC123" [("ABC123", sampleState)])
        (aupsert "ABC123" (100 : ℚ) []) "ABC123" 200 sampleState).1
      = some sampleState := by
  have h := C6_lobby_removal_cooldown [("ABC123", sampleState)] [] "ABC123"
    sampleState "dog"
    { ip := "10.0.0.1", player_id := some "0123456789abcdef0123456789abcdef",
      score := 0, last_active := 50 }
    "0123456789abcdef0123456789abcdef" "10.0.0.1" 100
    (by decide) (by decide) (by decide) (by decide) (by decide) (by decide)
  exact ⟨h.1,
    h.2.2.2.2.1 110 sampleState (by norm_num [REMOVAL_COOLDOWN]),
    h.2.2.2.2.2 200 sampleState (by norm_num [REMOVAL_COOLDOWN])⟩

/-- `EMOJI_VARIANTS` (models.py 38). -/
def EMOJI_VARIANTS : List String :=
  ["red", "blue", "green", "yellow", "purple", "orange", "pink", "cyan"]

/-- Decimal digit character, as produced by Python's f-string rendering. -/
def natDigitChar : Nat → Char
  | 0 => '0'
  | 1 => '1'
  | 2 => '2'
  | 3 => '3'
  | 4 => '4'
  | 5 => '5'
  | 6 => '6'
  | 7 => '7'
  | 8 => '8'
  | 9 => '9'
  | _ => '0'

/-- Decimal rendering of a natural number (most significant digit first),
mirroring `f"{base_emoji}-{counter}"`. -/
def natDigits (n : Nat) : List Char :=
  if _h : n < 10 then [natDigitChar n]
  else natDigits (n / 10) ++ [natDigitChar (n % 10)]
termination_by n
decreasing_by
  exact Nat.div_lt_self (by omega) (by omega)

def digitVal (c : Char) : Nat := c.toNat - 48

def digitsVal (ds : List Char) : Nat :=
  ds.foldl (fun acc c => acc * 10 + digitVal c) 0

theorem digitVal_natDigitChar (k : Nat) (h : k < 10) :
    digitVal (natDigitChar k) = k := by
  interval_cases k <;> rfl

theorem digitsVal_natDigits (n : Nat) : digitsVal (natDigits n) = n := by
  induction n using Nat.strong_induction_on with
  | _ n ih =>
    by_cases h : n < 10
    · rw [natDigits, dif_pos h]
      simp [digitsVal, digitVal_natDigitChar n h]
    · rw [natDigits, dif_neg h]
      have hdiv := ih (n / 10) (Nat.div_lt_self (by omega) (by omega))
      simp only [digitsVal, List.foldl_append] at hdiv ⊢
      rw [hdiv]
      simp [digitVal_natDigitChar (n % 10) (Nat.mod_lt n (by omega))]
      omega

theorem natDigits_injective : Function.Injective natDigits := by
  intro m n h
  have hm := digitsVal_natDigits m
  rw [h, digitsVal_natDigits n] at hm
  exact hm.symm

/-- `f"{base_emoji}-{variant}"` for a named variant (models.py 58). -/
def variantName (base v : String) : String := base ++ "-" ++ v

/-- `f"{base_emoji}-{counter}"` for a numbered variant (models.py 65). -/
def numberedVariant (base : String) (n : Nat) : String :=
  base ++ "-" ++ String.mk (natDigits n)

theorem numberedVariant_injective (base : String) :
    Function.Injective (numberedVariant base) := by
  intro m n h
  apply natDigits_injective
  have hdata := congrArg String.data h
  simp only [numberedVariant, String.data_append] at hdata
  exact List.append_cancel_left hdata

theorem exists_free_numbered (base : String) (existing : Finset String) :
    ∃ k : Nat, numberedVariant base (9 + k) ∉ existing := by
  by_contra hall
  push_neg at hall
  have hinj : Function.Injective
      (fun k : Fin (existing.card + 1) => numberedVariant base (9 + (k : Nat))) := by
    intro i j hij
    have h9 := numberedVariant_injective base hij
    have : (i : Nat) = (j : Nat) := by omega
    exact Fin.ext this
  have hcard : (Finset.univ : Finset (Fin (existing.card + 1))).card
      ≤ existing.card :=
    Finset.card_le_card_of_injOn
      (fun k : Fin (existing.card + 1) => numberedVariant base (9 + (k : Nat)))
      (fun i _ => hall (i : Nat)) (hinj.injOn)
  simp only [Finset.card_univ, Fintype.card_fin] at hcard
  omega

/-- `get_emoji_variant` (models.py 41-68): the base emoji when free,
otherwise the first free entry of `EMOJI_VARIANTS` suffixed to the base,
otherwise the first free numbered variant counting up from
`len(EMOJI_VARIANTS) + 1 = 9` (the unbounded `while True` search
terminates because `existing_emojis` is finite and the numbered names are
pairwise distinct). -/
def get_emoji_variant (base_emoji : String) (existing_emojis : Finset String) :
    String :=
  if base_emoji ∉ existing_emojis then base_emoji
  else
    match EMOJI_VARIANTS.find?
        (fun v => decide (variantName base_emoji v ∉ existing_emojis)) with
    | some v => variantName base_emoji v
    | none =>
      numberedVariant base_emoji
        (9 + Nat.find (exists_free_numbered base_emoji existing_emojis))

/-- C9: for every base emoji string and finite set of taken keys,
`get_emoji_variant` terminates (it is a total function; the fallback
search is well-defined by finiteness) and returns a key not in the set,
chosen deterministically: the base itself when free; otherwise the first
free entry of the ordered named-variant list `base-red, base-blue, ...`;
otherwise (all named variants taken) the first free numbered variant
`base-9, base-10, ...`. -/
theorem C9_emoji_variant :
    ∀ (base : String) (existing : Finset String),
      get_emoji_variant base existing ∉ existing ∧
      (base ∉ existing → get_emoji_variant base existing = base) ∧
      (base ∈ existing →
        ∀ v, EMOJI_VARIANTS.find?
            (fun v => decide (variantName base v ∉ existing)) = some v →
          get_emoji_variant base existing = variantName base v ∧
            variantName base v ∉ existing) ∧
      (base ∈ existing →
        EMOJI_VARIANTS.find?
            (fun v => decide (variantName base v ∉ existing)) = none →
        (∀ v ∈ EMOJI_VARIANTS, variantName base v ∈ existing) ∧
        ∃ k, get_emoji_variant base existing = numberedVariant base (9 + k) ∧
          numberedVariant base (9 + k) ∉ existing ∧
          ∀ j < k, numberedVariant base (9 + j) ∈ existing) := by
  intro base existing
  by_cases hb : base ∈ existing
  · rcases hf : EMOJI_VARIANTS.find?
        (fun v => decide (variantName base v ∉ existing)) with _ | v
    · have hf' : EMOJI_VARIANTS.find?
          (fun v => !decide (variantName base v ∈ existing)) = none := by
        simpa using hf
      have hres : get_emoji_variant base existing
          = numberedVariant base (9 + Nat.find (exists_free_numbered base existing)) := by
        simp [get_emoji_variant, hb, hf']
      refine ⟨?_, fun h => absurd hb h, ?_, ?_⟩
      · rw [hres]
        exact Nat.find_spec (exists_free_numbered base existing)
      · intro _ v hv
        exact Option.noConfusion hv
      · intro _ _
        constructor
        · intro v hv
          have hnone := List.find?_eq_none.mp hf v hv
          simpa using hnone
        · refine ⟨Nat.find (exists_free_numbered base existing), hres,
            Nat.find_spec (exists_free_numbered base existing), ?_⟩
          intro j hj
          have hmin := Nat.find_min (exists_free_numbered base existing) hj
          simpa using hmin
    · have hf' : EMOJI_VARIANTS.find?
          (fun v' => !decide (variantName base v' ∈ existing)) = some v := by
        simpa using hf
      have hp := List.find?_some hf
      have hnot : variantName base v ∉ existing := by simpa using hp
      have hres : get_emoji_variant base existing = variantName base v := by
        simp [get_emoji_variant, hb, hf']
      refine ⟨hres ▸ hnot, fun h => absurd hb h, ?_, ?_⟩
      · intro _ v' hv'
        obtain rfl := Option.some.inj hv'
        exact ⟨hres, hnot⟩
      · intro _ hnone
        exact Option.noConfusion hnone
  · have hres : get_emoji_variant base existing = base := by
      simp [get_emoji_variant, hb]
    exact ⟨by rw [hres]; exact hb, fun _ => hres,
      fun h => absurd h hb, fun h => absurd h hb⟩

theorem C9_emoji_variant_witness :
    get_emoji_variant "dog" ({"dog"} : Finset String) ∉ ({"dog"} : Finset String) ∧
    get_emoji_variant "dog" ({"dog"} : Finset String) = variantName "dog" "red" :=
  ⟨(C9_emoji_variant "dog" {"dog"}).1,
   ((C9_emoji_variant "dog" {"dog"}).2.2.1 (by decide) "red" (by decide)).1⟩

/-- `random.randint(a, b)` draws an integer in `[a, b]` inclusive;
modelled by clamping an arbitrary draw `r` into the range. -/
def randint (a b r : Nat) : Nat := a + r % (b - a + 1)

/-- `pick_new_word` (game_logic.py 152-170): choose a new target word
(`random.choice(WORDS)`, modelled by an arbitrary index draw), clear the
round state, place the Daily Double on a random tile of the first
`MAX_ROWS - 1` rows when `MAX_ROWS > 1`, clear the winners set, zero every
pending hint counter (keys are kept), and reset phase and activity (the
`definition` field is owned by the external lookup collaborator and is
omitted from the model). -/
def pick_new_word (words : List (List Char)) (wordDraw ddDraw : Nat)
    (now : ℚ) (s : GameState) : GameState :=
  { s with
    target_word := words.getD (wordDraw % words.length) []
    guesses := []
    is_over := false
    winner_emoji := none
    found_greens := ∅
    found_yellows := ∅
    win_timestamp := none
    daily_double_index :=
      if MAX_ROWS > 1 then some (randint 0 ((MAX_ROWS - 1) * 5 - 1) ddDraw)
      else none
    daily_double_winners := ∅
    daily_double_pending := s.daily_double_pending.map (fun pe => (pe.1, 0))
    phase := Phase.waiting
    last_activity := now }

/-- C10: after `pick_new_word` (with `MAX_ROWS = 6`), the Daily Double
tile index is always in `[0, (MAX_ROWS - 1) * 5 - 1] = [0, 24]` — its row
`index / 5` is among the first five rows, never the final row — the set
of Daily Double winners is empty, and every pending hint counter is reset
to 0 (the keys are preserved). -/
theorem C10_pick_new_word :
    ∀ (words : List (List Char)) (wordDraw ddDraw : Nat) (now : ℚ)
      (s : GameState),
      (pick_new_word words wordDraw ddDraw now s).daily_double_index
          = some (ddDraw % 25) ∧
      ddDraw % 25 ≤ (MAX_ROWS - 1) * 5 - 1 ∧
      ddDraw % 25 / 5 < MAX_ROWS - 1 ∧
      (pick_new_word words wordDraw ddDraw now s).daily_double_winners = ∅ ∧
      (pick_new_word words wordDraw ddDraw now s).daily_double_pending
          = s.daily_double_pending.map (fun pe => (pe.1, 0)) := by
  intro words wordDraw ddDraw now s
  have hlt : ddDraw % 25 < 25 := Nat.mod_lt ddDraw (by norm_num)
  refine ⟨?_, ?_, ?_, rfl, rfl⟩
  · simp [pick_new_word, randint, MAX_ROWS]
  · simp only [MAX_ROWS]
    omega
  · simp only [MAX_ROWS]
    exact (Nat.div_lt_iff_lt_mul (by norm_num)).mpr (by omega)

/-- The per-letter attribution is exact: the `points_delta` computed by
the scoring loop is the sum, over the distinct letters of the guess, of
the amounts attributed to each letter by `payFor`. -/
theorem guessDelta_eq_sum_payFor (st : ScoreSt) (l : List (Char × Verdict)) :
    guessDelta st l = ∑ x ∈ (l.map Prod.fst).toFinset, payFor x st l := by
  induction l generalizing st with
  | nil => simp [guessDelta]
  | cons p rest ih =>
    obtain ⟨c, v⟩ := p
    have hsplit : ∀ T : Finset Char,
        (∑ x ∈ T, payFor x st ((c, v) :: rest))
          = (∑ x ∈ T, if x = c then stepPay st c v else 0)
            + ∑ x ∈ T, payFor x (stepSt st c v) rest := by
      intro T
      rw [← Finset.sum_add_distrib]
      apply Finset.sum_congr rfl
      intro x _
      simp only [payFor]
      by_cases hx : c = x
      · subst hx
        simp
      · rw [if_neg hx, if_neg (fun h => hx h.symm)]
    by_cases hc : c ∈ (rest.map Prod.fst).toFinset
    · have hset : ((((c, v) :: rest).map Prod.fst).toFinset : Finset Char)
          = (rest.map Prod.fst).toFinset := by
        simp [List.toFinset_cons, Finset.insert_eq_self.mpr hc]
      rw [hset, hsplit, Finset.sum_ite_eq' _ c (fun _ => stepPay st c v)]
      rw [if_pos hc, guessDelta, ih]
    · have hset : ((((c, v) :: rest).map Prod.fst).toFinset : Finset Char)
          = insert c (rest.map Prod.fst).toFinset := by
        simp [List.toFinset_cons]
      have hnotin : ∀ q ∈ rest, q.1 ≠ c := by
        intro q hq he
        exact hc (List.mem_toFinset.mpr (he ▸ List.mem_map_of_mem Prod.fst hq))
      rw [hset, hsplit, Finset.sum_ite_eq' _ c (fun _ => stepPay st c v)]
      rw [if_pos (Finset.mem_insert_self c _)]
      rw [Finset.sum_insert hc]
      rw [(payFor_not_occurring c (stepSt st c v) rest hnotin).1]
      rw [guessDelta, ih]
      ring
